import Mathlib

/-!
Shallow embedding of `src/db/src/triehash.rs` (Merkle-Patricia trie root
computation) from the cita-common repository.

Byte strings are modelled as `List Nat` whose elements are byte values; where
`u8` overflow matters the source arithmetic is reproduced with explicit
`% 256`.  The cryptographic digest function (`crypt_hash`, an external
collaborator) is a parameter `hash : List Nat → List Nat` of every
definition that uses it.  Rust panics (out-of-bounds indexing / slicing) are
modelled by an `oob` error in an `Except` monad, and the mutual recursion of
`hash256rlp`/`hash256aux` is driven by an explicit fuel parameter whose
exhaustion is a distinct `fuel` error; fuel sufficiency is proved separately.
-/

/-- Byte strings (`Vec<u8>` in the source). -/
abbrev Bytes := List Nat

/-- Rust's `Ord` on `Vec<u8>`: strict lexicographic order on byte strings,
with a proper initial segment ordered before its extensions.  This is the
order of the `BTreeMap` used by the entry normalizers. -/
def byteLt : Bytes → Bytes → Bool
  | [], [] => false
  | [], _ :: _ => true
  | _ :: _, [] => false
  | a :: as, b :: bs => if a < b then true else if b < a then false else byteLt as bs

/-- Modelled from the spec: the pairwise shared-prefix-length function
(`util::SharedPrefix::shared_prefix_len`, an external collaborator of the
core): the number of leading positions on which the two sequences agree. -/
def sharedPrefixLen : Bytes → Bytes → Nat
  | a :: as, b :: bs => if a = b then sharedPrefixLen as bs + 1 else 0
  | _, _ => 0

/-- `as_nibbles`: converts a byte string to its nibble sequence, high nibble
first (`bytes[i] >> 4` then `(bytes[i] << 4) >> 4` on `u8`). -/
def asNibbles : Bytes → Bytes
  | [] => []
  | b :: rest => b % 256 / 16 :: b % 16 :: asNibbles rest

/-- The packing loop of `hex_prefix_encode`: consume nibbles two at a time,
emitting `(nibbles[offset] << 4) + nibbles[offset + 1]` on `u8`. -/
def packPairs : Bytes → Bytes
  | a :: b :: rest => (a * 16 % 256 + b) % 256 :: packPairs rest
  | _ => []

/-- `hex_prefix_encode`: hex-prefix notation.  The first byte's high nibble
carries oddness (bit 0) and the leaf flag (bit 1); an odd-length path puts
its first nibble in the low nibble of that first byte; the remaining nibbles
are packed two per byte. -/
def hex_prefix_encode (nibbles : Bytes) (leaf : Bool) : Bytes :=
  let inlen := nibbles.length
  let oddness := inlen % 2
  let firstByte :=
    ((inlen % 2 + 2 * (if leaf then 1 else 0)) * 16
      + (if oddness = 1 then nibbles.headD 0 else 0)) % 256
  firstByte :: packPairs (nibbles.drop oddness)

/-- Minimal big-endian base-256 digits of a natural number (empty for 0),
written with an explicit structural fuel so that it reduces definitionally. -/
def natBytesBEAux : Nat → Nat → Bytes
  | 0, _ => []
  | fuel + 1, n => if n = 0 then [] else natBytesBEAux fuel (n / 256) ++ [n % 256]

/-- Minimal big-endian base-256 representation of a natural number. -/
def natBytesBE (n : Nat) : Bytes := natBytesBEAux n n

/-- Number of base-256 digits of `n` (0 for 0). -/
def blen (n : Nat) : Nat := (natBytesBE n).length

/-- Modelled from the spec: the length header of the structured byte encoder
(RLP, the external `rlp` crate) for a byte string of the given length. -/
def rlpStrHeader (len : Nat) : Bytes :=
  if len ≤ 55 then [128 + len] else (183 + blen len) :: natBytesBE len

/-- Modelled from the spec: the structured byte encoder's encoding of a raw
byte string (RLP string encoding): a single byte below `0x80` stands for
itself, otherwise a length header precedes the bytes. -/
def rlpEncodeBytes (b : Bytes) : Bytes :=
  match b with
  | [x] => if x < 128 then [x] else rlpStrHeader 1 ++ b
  | _ => rlpStrHeader b.length ++ b

/-- Modelled from the spec: the structured byte encoder's list header for a
payload of the given length. -/
def rlpListHeader (len : Nat) : Bytes :=
  if len ≤ 55 then [192 + len] else (247 + blen len) :: natBytesBE len

/-- Modelled from the spec: the structured byte encoder's encoding of a list
whose items have already been encoded (`begin_list(n)` followed by the items
and `out()`): the concatenated items preceded by a list header. -/
def rlpList (items : List Bytes) : Bytes :=
  let payload := items.foldr (· ++ ·) []
  rlpListHeader payload.length ++ payload

/-- Modelled from the spec: the structured byte encoder's encoding of a
sequence index (`rlp::encode(&i)` for `usize`): the RLP string encoding of
the minimal big-endian representation of the number. -/
def rlpEncNat (n : Nat) : Bytes := rlpEncodeBytes (natBytesBE n)

/-- `BTreeMap` insertion into an association list kept strictly sorted by
`byteLt` on keys; an existing entry with the same key is overwritten. -/
def insertSorted (k : Bytes) (v : Bytes) : List (Bytes × Bytes) → List (Bytes × Bytes)
  | [] => [(k, v)]
  | (k', v') :: rest =>
    if byteLt k k' then (k, v) :: (k', v') :: rest
    else if k = k' then (k, v) :: rest
    else (k', v') :: insertSorted k v rest

/-- Collecting an iterator of pairs into a `BTreeMap` and reading it back in
key order: fold the pairs in order into a sorted association list, later
duplicates overwriting earlier ones. -/
def toBTree (l : List (Bytes × Bytes)) : List (Bytes × Bytes) :=
  l.foldl (fun m p => insertSorted p.1 p.2 m) []

/-- Failure modes of the embedded computation: `oob` models a Rust panic from
out-of-bounds indexing or slicing, `fuel` exhaustion of the recursion fuel. -/
inductive TrieErr
  | oob
  | fuel
deriving DecidableEq, Repr

instance exceptDecEq {ε α : Type} [DecidableEq ε] [DecidableEq α] :
    DecidableEq (Except ε α) := fun x y =>
  match x, y with
  | Except.ok a, Except.ok b =>
    if h : a = b then isTrue (by rw [h])
    else isFalse (fun hc => h (Except.ok.inj hc))
  | Except.ok _, Except.error _ => isFalse (fun hc => Except.noConfusion hc)
  | Except.error _, Except.ok _ => isFalse (fun hc => Except.noConfusion hc)
  | Except.error e, Except.error f =>
    if h : e = f then isTrue (by rw [h])
    else isFalse (fun hc => h (Except.error.inj hc))

/-- The `take_while(|pair| pair.0[pre_len] == i).count()` of the branch case:
counts the leading entries whose key nibble at `pre_len` equals `i`, erring
like Rust if an inspected key is too short. -/
def takeCount (preLen i : Nat) : List (Bytes × Bytes) → Except TrieErr Nat
  | [] => Except.ok 0
  | p :: ps =>
    match p.1[preLen]? with
    | none => Except.error TrieErr.oob
    | some n =>
      if n = i then
        match takeCount preLen i ps with
        | Except.ok c => Except.ok (c + 1)
        | Except.error e => Except.error e
      else Except.ok 0

/-- `hash256aux` with the recursive call abstracted: encode the child with
`recur`; an encoding of at most 31 bytes is appended raw, a longer one is
replaced by the (RLP-encoded) digest of the encoding. -/
def hash256auxWith (hash : Bytes → Bytes)
    (recur : List (Bytes × Bytes) → Nat → Except TrieErr Bytes)
    (input : List (Bytes × Bytes)) (preLen : Nat) : Except TrieErr Bytes :=
  match recur input preLen with
  | Except.ok out =>
      if out.length ≤ 31 then Except.ok out
      else Except.ok (rlpEncodeBytes (hash out))
  | Except.error e => Except.error e

/-- The `for i in 0..16` loop of the branch case of `hash256rlp`, with the
recursive call abstracted: `rem` counts the remaining iterations (the current
nibble is `16 - rem`) and `beg` is the running start index of the slice. -/
def branchLoopWith (hash : Bytes → Bytes)
    (recur : List (Bytes × Bytes) → Nat → Except TrieErr Bytes)
    (input : List (Bytes × Bytes)) (preLen : Nat) :
    Nat → Nat → Except TrieErr (List Bytes)
  | 0, _ => Except.ok []
  | rem + 1, beg =>
    let i := 16 - (rem + 1)
    match (if beg < input.length then takeCount preLen i (input.drop beg) else Except.ok 0) with
    | Except.error e => Except.error e
    | Except.ok len =>
      match (if len = 0 then Except.ok (rlpEncodeBytes [])
             else hash256auxWith hash recur ((input.drop beg).take len) (preLen + 1)) with
      | Except.error e => Except.error e
      | Except.ok item =>
        match branchLoopWith hash recur input preLen rem (beg + len) with
        | Except.ok items => Except.ok (item :: items)
        | Except.error e => Except.error e

/-- One unfolding of `hash256rlp` with the recursive call abstracted: the
empty, single-entry (leaf), shared-prefix (extension) and 17-item branch
cases of the source, producing the byte encoding that the source appends to
its output stream. -/
def hash256rlpStep (hash : Bytes → Bytes)
    (recur : List (Bytes × Bytes) → Nat → Except TrieErr Bytes)
    (input : List (Bytes × Bytes)) (preLen : Nat) : Except TrieErr Bytes :=
  match input with
  | [] => Except.ok (rlpEncodeBytes [])
  | (key, value) :: rest =>
    if rest.isEmpty then
      if preLen ≤ key.length then
        Except.ok (rlpList [rlpEncodeBytes (hex_prefix_encode (key.drop preLen) true),
                            rlpEncodeBytes value])
      else Except.error TrieErr.oob
    else
      let shared := rest.foldl (fun acc p => min (sharedPrefixLen key p.1) acc) key.length
      if preLen < shared then
        match hash256auxWith hash recur input shared with
        | Except.ok item =>
            Except.ok (rlpList [rlpEncodeBytes
              (hex_prefix_encode ((key.drop preLen).take (shared - preLen)) false), item])
        | Except.error e => Except.error e
      else
        let beg := if preLen = key.length then 1 else 0
        match branchLoopWith hash recur input preLen 16 beg with
        | Except.ok items =>
            Except.ok (rlpList (items ++
              [if preLen = key.length then rlpEncodeBytes value else rlpEncodeBytes []]))
        | Except.error e => Except.error e

/-- `hash256rlp`, driven by a structural fuel parameter: each recursive
descent spends one unit of fuel. -/
def hash256rlp (hash : Bytes → Bytes) : Nat → List (Bytes × Bytes) → Nat → Except TrieErr Bytes
  | 0, _, _ => Except.error TrieErr.fuel
  | fuel + 1, input, preLen => hash256rlpStep hash (hash256rlp hash fuel) input preLen

/-- `hash256aux` at a given fuel: encode the subtree and either embed the
encoding raw (at most 31 bytes) or replace it by its digest. -/
def hash256aux (hash : Bytes → Bytes) (fuel : Nat)
    (input : List (Bytes × Bytes)) (preLen : Nat) : Except TrieErr Bytes :=
  hash256auxWith hash (hash256rlp hash fuel) input preLen

/-- Largest nibble-key length occurring in the entry list. -/
def maxKeyLen (input : List (Bytes × Bytes)) : Nat :=
  input.foldr (fun p a => max p.1.length a) 0

/-- Fuel given to the recursion by the root finalizer: an upper bound on the
recursion depth (each descent either shortens the range or deepens the
consumed prefix, which is bounded by the largest key length). -/
def trieFuel (input : List (Bytes × Bytes)) : Nat :=
  input.length + maxKeyLen input + 3

/-- `gen_trie_root`: encode the whole entry list from depth 0 and always hash
the resulting top-level encoding. -/
def gen_trie_root (hash : Bytes → Bytes) (input : List (Bytes × Bytes)) : Except TrieErr Bytes :=
  match hash256rlp hash (trieFuel input) input 0 with
  | Except.ok out => Except.ok (hash out)
  | Except.error e => Except.error e

/-- `trie_root`: collect the (key, value) pairs into a `BTreeMap` (sort and
deduplicate by raw key bytes), convert each key to nibbles, and finalize. -/
def trie_root (hash : Bytes → Bytes) (input : List (Bytes × Bytes)) : Except TrieErr Bytes :=
  gen_trie_root hash ((toBTree input).map (fun p => (asNibbles p.1, p.2)))

/-- `sec_trie_root`: like `trie_root` but each key is first replaced by its
digest (`k.crypt_hash().to_vec()`). -/
def sec_trie_root (hash : Bytes → Bytes) (input : List (Bytes × Bytes)) : Except TrieErr Bytes :=
  gen_trie_root hash
    ((toBTree (input.map (fun p => (hash p.1, p.2)))).map (fun p => (asNibbles p.1, p.2)))

/-- The entry normalization of `ordered_trie_root`: each value is keyed by
the RLP encoding of its sequence index, and the pairs are collected into a
`BTreeMap`. -/
def orderedEntries (input : List Bytes) : List (Bytes × Bytes) :=
  toBTree (input.enum.map (fun p => (rlpEncNat p.1, p.2)))

/-- `ordered_trie_root`: normalize by encoded sequence index, convert keys to
nibbles, and finalize. -/
def ordered_trie_root (hash : Bytes → Bytes) (input : List Bytes) : Except TrieErr Bytes :=
  gen_trie_root hash ((orderedEntries input).map (fun p => (asNibbles p.1, p.2)))

/-- A concrete stand-in digest function used to instantiate witnesses: a
fixed-width (32-byte) fold of the input. -/
def testHash (b : Bytes) : Bytes :=
  List.replicate 32 ((b.foldl (fun a x => a + x) b.length) % 256)

/-- Keep, for each derived key, only the last entry of the list bearing it. -/
def dedupLastBy (f : Bytes × Bytes → Bytes) : List (Bytes × Bytes) → List (Bytes × Bytes)
  | [] => []
  | p :: rest =>
    if rest.any (fun q => f q == f p) then dedupLastBy f rest
    else p :: dedupLastBy f rest

/-- Recursion-depth measure for `hash256rlp`: (range length) plus (largest
key length plus one minus the consumed prefix), plus one. -/
def trieMeasure (input : List (Bytes × Bytes)) (preLen : Nat) : Nat :=
  input.length + (maxKeyLen input + 1 - preLen) + 1

/-! ### Order lemmas for `byteLt` -/

theorem byteLt_irrefl (a : Bytes) : byteLt a a = false := by
  induction a with
  | nil => rfl
  | cons x xs ih => simp [byteLt, ih]

theorem byteLt_trans : ∀ (a b c : Bytes),
    byteLt a b = true → byteLt b c = true → byteLt a c = true := by
  intro a
  induction a with
  | nil =>
    intro b c hab hbc
    cases b with
    | nil => simp [byteLt] at hab
    | cons y ys =>
      cases c with
      | nil => simp [byteLt] at hbc
      | cons z zs => simp [byteLt]
  | cons x xs ih =>
    intro b c hab hbc
    cases b with
    | nil => simp [byteLt] at hab
    | cons y ys =>
      cases c with
      | nil => simp [byteLt] at hbc
      | cons z zs =>
        simp only [byteLt] at hab hbc ⊢
        rcases Nat.lt_trichotomy x y with h1 | h1 | h1
        · rcases Nat.lt_trichotomy y z with h2 | h2 | h2
          · simp [Nat.lt_trans h1 h2]
          · subst h2; simp [h1]
          · simp [Nat.lt_asymm h2, h2] at hbc
        · subst h1
          rcases Nat.lt_trichotomy x z with h2 | h2 | h2
          · simp [h2]
          · subst h2
            simp only [Nat.lt_irrefl, if_false] at hab hbc ⊢
            exact ih ys zs hab hbc
          · simp [Nat.lt_asymm h2, h2] at hbc
        · simp [Nat.lt_asymm h1, h1] at hab

theorem byteLt_asymm {a b : Bytes} (h : byteLt a b = true) : byteLt b a = false := by
  cases hba : byteLt b a with
  | false => rfl
  | true =>
    have := byteLt_trans a b a h hba
    rw [byteLt_irrefl] at this
    exact absurd this (by simp)

theorem byteLt_total : ∀ (a b : Bytes), byteLt a b = true ∨ a = b ∨ byteLt b a = true := by
  intro a
  induction a with
  | nil =>
    intro b
    cases b with
    | nil => right; left; rfl
    | cons y ys => left; simp [byteLt]
  | cons x xs ih =>
    intro b
    cases b with
    | nil => right; right; simp [byteLt]
    | cons y ys =>
      rcases Nat.lt_trichotomy x y with h | h | h
      · left; simp [byteLt, h]
      · subst h
        rcases ih ys with h2 | h2 | h2
        · left; simp [byteLt, h2]
        · right; left; rw [h2]
        · right; right; simp [byteLt, h2]
      · right; right; simp [byteLt, h]

theorem byteLt_cons_same (x : Nat) (s t : Bytes) :
    byteLt (x :: s) (x :: t) = byteLt s t := by
  simp [byteLt]

theorem byteLt_append_same : ∀ (a s t : Bytes), byteLt (a ++ s) (a ++ t) = byteLt s t := by
  intro a
  induction a with
  | nil => intro s t; rfl
  | cons x xs ih => intro s t; simpa [byteLt_cons_same] using ih s t

theorem byteLt_append_of_lt : ∀ (a b s t : Bytes), a.length = b.length →
    byteLt a b = true → byteLt (a ++ s) (b ++ t) = true := by
  intro a
  induction a with
  | nil =>
    intro b s t hlen hab
    cases b with
    | nil => simp [byteLt] at hab
    | cons y ys => simp at hlen
  | cons x xs ih =>
    intro b s t hlen hab
    cases b with
    | nil => simp at hlen
    | cons y ys =>
      simp only [byteLt] at hab
      rcases Nat.lt_trichotomy x y with h | h | h
      · simp [byteLt, h]
      · subst h
        simp only [Nat.lt_irrefl, if_false] at hab
        simp only [List.cons_append, byteLt_cons_same]
        exact ih ys s t (by simpa using hlen) hab
      · simp [Nat.lt_asymm h, h] at hab

theorem byteLt_take_self : ∀ (a : Bytes) (n : Nat), byteLt a (a.take n) = false := by
  intro a
  induction a with
  | nil => intro n; cases n <;> rfl
  | cons x xs ih =>
    intro n
    cases n with
    | zero => rfl
    | succ m => simpa [List.take_succ_cons, byteLt_cons_same] using ih m

/-! ### Hex-prefix encoding (C3) -/

theorem packPairs_length : ∀ l : Bytes, (packPairs l).length = l.length / 2
  | [] => by simp [packPairs]
  | [_] => by simp [packPairs]
  | a :: b :: rest => by
    have ih := packPairs_length rest
    simp only [packPairs, List.length_cons, ih]
    omega

theorem packPairs_getElem : ∀ (l : Bytes) (j : Nat), (∀ x ∈ l, x < 16) →
    2 * j + 1 < l.length →
    (packPairs l)[j]? = some (16 * l.getD (2 * j) 0 + l.getD (2 * j + 1) 0)
  | [], j => by simp
  | [_], j => by
    intro _ h
    simp only [List.length_cons, List.length_nil] at h
    omega
  | a :: b :: rest, 0 => by
    intro hlt _
    have ha : a < 16 := hlt a (by simp)
    have hb : b < 16 := hlt b (by simp)
    simp only [packPairs, Nat.mul_zero, List.getD_cons_zero, List.getElem?_cons_zero,
      Nat.zero_add, List.getD_cons_succ]
    congr 1
    omega
  | a :: b :: rest, j + 1 => by
    intro hlt h
    have ih := packPairs_getElem rest j (fun x hx => hlt x (by simp [hx]))
      (by simp only [List.length_cons] at h; omega)
    have e1 : 2 * (j + 1) = 2 * j + 1 + 1 := by omega
    have e2 : 2 * (j + 1) + 1 = 2 * j + 1 + 1 + 1 := by omega
    simp only [packPairs, List.getElem?_cons_succ, e1, e2, List.getD_cons_succ]
    exact ih

/-- C3 (corrected, counterexample): the spec's output-length formula
`⌈(len(nibbles)+2)/2⌉` fails for odd-length nibble paths: on the source's own
documented example `[1,2,3,4,5]` the encoder outputs 3 bytes, while the
ceiling of (5+2)/2, written `(5+2+1)/2` over the naturals, is 4. -/
theorem hex_prefix_encode_length_ceil_cex :
    (hex_prefix_encode [1, 2, 3, 4, 5] false).length = 3 ∧ (5 + 2 + 1) / 2 = 4 := by
  constructor
  · rfl
  · rfl

/-- C3 (amended): for a nibble sequence of length `n` (values below 16) and
leaf flag, `hex_prefix_encode` returns `⌊(n+2)/2⌋` bytes (not `⌈(n+2)/2⌉`);
the first byte's top nibble is `(1 if n odd else 0) + (2 if leaf else 0)`;
if `n` is odd the first nibble occupies the low nibble of the first byte
(otherwise that low nibble is 0); and the remaining nibbles are packed two
per byte in order, high nibble first. -/
theorem hex_prefix_encode_spec (nibbles : Bytes) (leaf : Bool)
    (h : ∀ x ∈ nibbles, x < 16) :
    (hex_prefix_encode nibbles leaf).length = (nibbles.length + 2) / 2 ∧
    (hex_prefix_encode nibbles leaf).headD 0 / 16
      = nibbles.length % 2 + (if leaf then 2 else 0) ∧
    (nibbles.length % 2 = 1 →
      (hex_prefix_encode nibbles leaf).headD 0 % 16 = nibbles.headD 0) ∧
    (nibbles.length % 2 = 0 → (hex_prefix_encode nibbles leaf).headD 0 % 16 = 0) ∧
    (∀ j, nibbles.length % 2 + 2 * j + 1 < nibbles.length →
      (hex_prefix_encode nibbles leaf)[j + 1]? =
        some (16 * nibbles.getD (nibbles.length % 2 + 2 * j) 0
              + nibbles.getD (nibbles.length % 2 + 2 * j + 1) 0)) := by
  have hhead : nibbles.length % 2 = 1 → nibbles.headD 0 < 16 := by
    intro hodd
    cases nibbles with
    | nil => simp at hodd
    | cons x xs => exact h x (by simp)
  refine ⟨?_, ?_, ?_, ?_, ?_⟩
  · simp only [hex_prefix_encode, List.length_cons, packPairs_length, List.length_drop]
    omega
  · simp only [hex_prefix_encode, List.headD_cons]
    rcases Nat.lt_or_ge (nibbles.length % 2) 1 with hpar | hpar
    · have h0 : nibbles.length % 2 = 0 := by omega
      cases leaf <;> simp [h0]
    · have h1 : nibbles.length % 2 = 1 := by omega
      have := hhead h1
      cases leaf <;> simp only [h1, Bool.false_eq_true, if_false, if_true] <;> omega
  · intro h1
    have := hhead h1
    simp only [hex_prefix_encode, List.headD_cons, h1]
    cases leaf <;> simp only [Bool.false_eq_true, if_false, if_true] <;> omega
  · intro h0
    simp only [hex_prefix_encode, List.headD_cons, h0]
    cases leaf <;> simp
  · intro j hj
    have hdroplt : ∀ x ∈ nibbles.drop (nibbles.length % 2), x < 16 :=
      fun x hx => h x (List.mem_of_mem_drop hx)
    have hlen : 2 * j + 1 < (nibbles.drop (nibbles.length % 2)).length := by
      simp only [List.length_drop]; omega
    have hp := packPairs_getElem (nibbles.drop (nibbles.length % 2)) j hdroplt hlen
    have hd1 : (nibbles.drop (nibbles.length % 2)).getD (2 * j) 0
        = nibbles.getD (nibbles.length % 2 + 2 * j) 0 := by
      simp [List.getD_eq_getElem?_getD, List.getElem?_drop]
    have hd2 : (nibbles.drop (nibbles.length % 2)).getD (2 * j + 1) 0
        = nibbles.getD (nibbles.length % 2 + (2 * j + 1)) 0 := by
      simp [List.getD_eq_getElem?_getD, List.getElem?_drop]
    have e : nibbles.length % 2 + 2 * j + 1 = nibbles.length % 2 + (2 * j + 1) := by omega
    simp only [hex_prefix_encode, List.getElem?_cons_succ, hp, hd1, hd2, e]

/-- C3 witness: the amended statement evaluated on the source's documented
example `[1,2,3,4,5]` with the leaf flag set. -/
theorem hex_prefix_encode_spec_wit :
    (hex_prefix_encode [1, 2, 3, 4, 5] true).length = (5 + 2) / 2 ∧
    (hex_prefix_encode [1, 2, 3, 4, 5] true).headD 0 / 16 = 3 := by
  have hs := hex_prefix_encode_spec [1, 2, 3, 4, 5] true (by decide)
  refine ⟨hs.1, ?_⟩
  have := hs.2.1
  simpa using this

/-! ### Embed/hash boundary (C2), secure variant (C5), single entry (C6) -/

/-- C2: when the recursive encoding of a child subtree succeeds with `out`,
`hash256aux` embeds `out` raw in the parent exactly when it is at most 31
bytes long (31 included), and appends the encoded digest of `out` instead
exactly when it is 32 bytes or longer. -/
theorem hash256aux_embed_hash_boundary (hash : Bytes → Bytes) (fuel : Nat)
    (input : List (Bytes × Bytes)) (preLen : Nat) (out : Bytes)
    (h : hash256rlp hash fuel input preLen = Except.ok out) :
    (out.length ≤ 31 → hash256aux hash fuel input preLen = Except.ok out) ∧
    (31 < out.length →
      hash256aux hash fuel input preLen = Except.ok (rlpEncodeBytes (hash out))) := by
  constructor
  · intro hl
    simp [hash256aux, hash256auxWith, h, hl]
  · intro hl
    simp only [hash256aux, hash256auxWith, h]
    rw [if_neg (by omega)]

/-- C2 witness: a single-entry subtree whose encoding is 45 bytes long, so
the digest is appended. -/
theorem hash256aux_embed_hash_boundary_wit :
    hash256aux testHash 3 [([4, 1], List.replicate 40 7)] 0
      = Except.ok (rlpEncodeBytes
          (testHash (236 :: 130 :: 32 :: 65 :: 168 :: List.replicate 40 7))) := by
  exact (hash256aux_embed_hash_boundary testHash 3 [([4, 1], List.replicate 40 7)] 0
    (236 :: 130 :: 32 :: 65 :: 168 :: List.replicate 40 7) (by decide)).2 (by decide)

/-- C5: the secure variant is exactly the direct-key variant composed with
per-key hashing: `sec_trie_root` equals `trie_root` applied to the input with
every key replaced by its digest. -/
theorem sec_trie_root_eq_trie_root_map_hash (hash : Bytes → Bytes)
    (input : List (Bytes × Bytes)) :
    sec_trie_root hash input = trie_root hash (input.map (fun p => (hash p.1, p.2))) := rfl

/-- C6: on a single (key, value) pair, `trie_root` returns the digest of the
encoder output of the 2-item list `[hex_prefix_encode(to_nibbles(k), leaf),
v]`; the root encoding is hashed unconditionally. -/
theorem trie_root_single_entry (hash : Bytes → Bytes) (k v : Bytes) :
    trie_root hash [(k, v)] =
      Except.ok (hash (rlpList [rlpEncodeBytes (hex_prefix_encode (asNibbles k) true),
                                rlpEncodeBytes v])) := by
  have hf : trieFuel [(asNibbles k, v)] = (asNibbles k).length + 3 + 1 := by
    simp [trieFuel, maxKeyLen]
    omega
  simp only [trie_root, toBTree, List.foldl, insertSorted, List.map, gen_trie_root, hf,
    hash256rlp, hash256rlpStep, List.isEmpty, Nat.zero_le, if_true, List.drop_zero]

/-! ### Sorted-map (`BTreeMap`) lemmas -/

theorem mem_insertSorted (k : Bytes) (v : Bytes) :
    ∀ (m : List (Bytes × Bytes)) (x), x ∈ insertSorted k v m → x = (k, v) ∨ x ∈ m := by
  intro m
  induction m with
  | nil => intro x hx; simp [insertSorted] at hx; left; exact hx
  | cons p rest ih =>
    intro x hx
    obtain ⟨k', v'⟩ := p
    simp only [insertSorted] at hx
    by_cases h1 : byteLt k k' = true
    · rw [if_pos h1] at hx
      rcases List.mem_cons.mp hx with h | h
      · left; exact h
      · right; exact h
    · rw [if_neg h1] at hx
      by_cases h2 : k = k'
      · rw [if_pos h2] at hx
        rcases List.mem_cons.mp hx with h | h
        · left; exact h
        · right; exact List.mem_cons_of_mem _ h
      · rw [if_neg h2] at hx
        rcases List.mem_cons.mp hx with h | h
        · right; rw [h]; exact List.mem_cons_self _ _
        · rcases ih x h with h' | h'
          · left; exact h'
          · right; exact List.mem_cons_of_mem _ h'

theorem insertSorted_pairwise (k : Bytes) (v : Bytes) :
    ∀ (m : List (Bytes × Bytes)),
    m.Pairwise (fun a b => byteLt a.1 b.1 = true) →
    (insertSorted k v m).Pairwise (fun a b => byteLt a.1 b.1 = true) := by
  intro m
  induction m with
  | nil => intro _; simp [insertSorted]
  | cons p rest ih =>
    intro hm
    obtain ⟨k', v'⟩ := p
    rw [List.pairwise_cons] at hm
    obtain ⟨hhead, htail⟩ := hm
    simp only [insertSorted]
    by_cases h1 : byteLt k k' = true
    · rw [if_pos h1]
      refine List.Pairwise.cons ?_ (List.Pairwise.cons hhead htail)
      intro x hx
      rcases List.mem_cons.mp hx with h | h
      · rw [h]; exact h1
      · exact byteLt_trans _ _ _ h1 (hhead x h)
    · rw [if_neg h1]
      by_cases h2 : k = k'
      · rw [if_pos h2]
        refine List.Pairwise.cons ?_ htail
        intro x hx
        rw [h2]
        exact hhead x hx
      · rw [if_neg h2]
        refine List.Pairwise.cons ?_ (ih htail)
        intro x hx
        rcases mem_insertSorted k v rest x hx with h | h
        · rcases byteLt_total k k' with h' | h' | h'
          · exact absurd h' h1
          · exact absurd h' h2
          · rw [h]; exact h'
        · exact hhead x h

theorem toBTree_pairwise (l : List (Bytes × Bytes)) :
    (toBTree l).Pairwise (fun a b => byteLt a.1 b.1 = true) := by
  suffices h : ∀ (l m : List (Bytes × Bytes)),
      m.Pairwise (fun a b => byteLt a.1 b.1 = true) →
      (l.foldl (fun m p => insertSorted p.1 p.2 m) m).Pairwise
        (fun a b => byteLt a.1 b.1 = true) by
    exact h l [] (by simp)
  intro l
  induction l with
  | nil => intro m hm; exact hm
  | cons p rest ih =>
    intro m hm
    exact ih _ (insertSorted_pairwise p.1 p.2 m hm)

theorem insertSorted_perm_of_not_mem (k : Bytes) (v : Bytes) :
    ∀ (m : List (Bytes × Bytes)), k ∉ m.map Prod.fst →
    (insertSorted k v m).Perm ((k, v) :: m) := by
  intro m
  induction m with
  | nil => intro _; simp [insertSorted]
  | cons p rest ih =>
    intro hk
    obtain ⟨k', v'⟩ := p
    simp only [List.map_cons, List.mem_cons] at hk
    push_neg at hk
    simp only [insertSorted]
    by_cases h1 : byteLt k k' = true
    · rw [if_pos h1]
    · rw [if_neg h1, if_neg hk.1]
      exact ((ih hk.2).cons (k', v')).trans (List.Perm.swap (k, v) (k', v') rest)

theorem keys_insertSorted_sub (k : Bytes) (v : Bytes) (m : List (Bytes × Bytes)) (x : Bytes) :
    x ∈ (insertSorted k v m).map Prod.fst → x = k ∨ x ∈ m.map Prod.fst := by
  intro hx
  rw [List.mem_map] at hx
  obtain ⟨p, hp, hpx⟩ := hx
  rcases mem_insertSorted k v m p hp with h | h
  · left; rw [← hpx, h]
  · right; rw [List.mem_map]; exact ⟨p, h, hpx⟩

theorem keys_toBTree_sub (l : List (Bytes × Bytes)) (x : Bytes) :
    x ∈ (toBTree l).map Prod.fst → x ∈ l.map Prod.fst := by
  suffices h : ∀ (l m : List (Bytes × Bytes)) (x),
      x ∈ (l.foldl (fun m p => insertSorted p.1 p.2 m) m).map Prod.fst →
      x ∈ m.map Prod.fst ∨ x ∈ l.map Prod.fst by
    intro hx
    rcases h l [] x hx with h' | h'
    · simp at h'
    · exact h'
  intro l
  induction l with
  | nil => intro m x hx; left; exact hx
  | cons p rest ih =>
    intro m x hx
    rcases ih _ x hx with h' | h'
    · rcases keys_insertSorted_sub p.1 p.2 m x h' with h'' | h''
      · right; simp [h'']
      · left; exact h''
    · right; exact List.mem_cons_of_mem _ h'

theorem toBTree_perm (l : List (Bytes × Bytes)) (hnd : (l.map Prod.fst).Nodup) :
    (toBTree l).Perm l := by
  induction l using List.reverseRecOn with
  | nil => simp [toBTree]
  | append_singleton l' p ih =>
    rw [List.map_append, List.nodup_append] at hnd
    obtain ⟨hnd', _, hdisj⟩ := hnd
    have hpk : p.1 ∉ l'.map Prod.fst := fun hc => hdisj hc (by simp)
    have hstep : toBTree (l' ++ [p]) = insertSorted p.1 p.2 (toBTree l') := by
      simp [toBTree, List.foldl_append]
    have hnotin : p.1 ∉ (toBTree l').map Prod.fst :=
      fun hc => hpk (keys_toBTree_sub l' p.1 hc)
    rw [hstep]
    have h1 : (insertSorted p.1 p.2 (toBTree l')).Perm ((p.1, p.2) :: toBTree l') :=
      insertSorted_perm_of_not_mem p.1 p.2 (toBTree l') hnotin
    have h2 : ((p.1, p.2) :: toBTree l').Perm (p :: l') := (ih hnd').cons _
    exact (h1.trans h2).trans (List.perm_append_singleton p l').symm

theorem sorted_perm_eq :
    ∀ (l₁ l₂ : List (Bytes × Bytes)), l₁.Perm l₂ →
    l₁.Pairwise (fun a b => byteLt a.1 b.1 = true) →
    l₂.Pairwise (fun a b => byteLt a.1 b.1 = true) → l₁ = l₂ := by
  intro l₁
  induction l₁ with
  | nil => intro l₂ hp _ _; exact hp.symm.eq_nil.symm
  | cons a t₁ ih =>
    intro l₂ hp hs₁ hs₂
    cases l₂ with
    | nil => exact absurd hp.eq_nil (by simp)
    | cons b t₂ =>
      by_cases hab : a = b
      · subst hab
        rw [ih t₂ hp.cons_inv (List.pairwise_cons.mp hs₁).2 (List.pairwise_cons.mp hs₂).2]
      · exfalso
        have hbmem : b ∈ t₁ := by
          rcases List.mem_cons.mp (hp.symm.subset (List.mem_cons_self b t₂)) with h | h
          · exact absurd h.symm hab
          · exact h
        have hamem : a ∈ t₂ := by
          rcases List.mem_cons.mp (hp.subset (List.mem_cons_self a t₁)) with h | h
          · exact absurd h hab
          · exact h
        have h1 : byteLt a.1 b.1 = true := (List.pairwise_cons.mp hs₁).1 b hbmem
        have h2 : byteLt b.1 a.1 = true := (List.pairwise_cons.mp hs₂).1 a hamem
        rw [byteLt_asymm h1] at h2
        exact absurd h2 (by simp)

/-- C1: for pairwise-distinct keys, `trie_root` is invariant under any
permutation of the (key, value) input sequence: the normalizing `BTreeMap`
produces the same sorted entry list for both inputs. -/
theorem trie_root_perm_invariant (hash : Bytes → Bytes) (l₁ l₂ : List (Bytes × Bytes))
    (hnd : (l₁.map Prod.fst).Nodup) (hp : l₁.Perm l₂) :
    trie_root hash l₁ = trie_root hash l₂ := by
  have hnd₂ : (l₂.map Prod.fst).Nodup := ((hp.map Prod.fst).nodup_iff).mp hnd
  have h₁ := toBTree_perm l₁ hnd
  have h₂ := toBTree_perm l₂ hnd₂
  have heq : toBTree l₁ = toBTree l₂ :=
    sorted_perm_eq _ _ ((h₁.trans hp).trans h₂.symm) (toBTree_pairwise l₁) (toBTree_pairwise l₂)
  simp [trie_root, heq]

/-- C1 witness: the source's own out-of-order test vectors. -/
theorem trie_root_perm_invariant_wit :
    trie_root testHash [([1, 35], [1, 35]), ([129, 35], [129, 35]), ([241, 35], [241, 35])]
      = trie_root testHash
          [([1, 35], [1, 35]), ([241, 35], [241, 35]), ([129, 35], [129, 35])] :=
  trie_root_perm_invariant testHash _ _ (by decide) (by decide)

/-! ### Duplicate keys: last insertion wins (C7) -/

theorem insertSorted_collapse (k : Bytes) (v v' : Bytes) :
    ∀ (m : List (Bytes × Bytes)),
    insertSorted k v' (insertSorted k v m) = insertSorted k v' m := by
  intro m
  induction m with
  | nil => simp [insertSorted, byteLt_irrefl]
  | cons p rest ih =>
    obtain ⟨k₀, v₀⟩ := p
    simp only [insertSorted]
    by_cases h1 : byteLt k k₀ = true
    · rw [if_pos h1]
      simp [insertSorted, byteLt_irrefl, h1]
    · rw [if_neg h1]
      by_cases h2 : k = k₀
      · rw [if_pos h2]
        simp [insertSorted, byteLt_irrefl, h1, h2]
      · rw [if_neg h2]
        simp only [insertSorted, if_neg h1, if_neg h2, ih]

theorem insertSorted_comm_lt (k₁ v₁ k₂ v₂ : Bytes) (hlt : byteLt k₁ k₂ = true) :
    ∀ (m : List (Bytes × Bytes)),
    insertSorted k₁ v₁ (insertSorted k₂ v₂ m)
      = insertSorted k₂ v₂ (insertSorted k₁ v₁ m) := by
  have hba : byteLt k₂ k₁ = false := byteLt_asymm hlt
  have hne : k₁ ≠ k₂ := by
    intro hc; rw [hc, byteLt_irrefl] at hlt; exact absurd hlt (by simp)
  have hne' : k₂ ≠ k₁ := Ne.symm hne
  intro m
  induction m with
  | nil => simp [insertSorted, hlt, hba, hne']
  | cons p rest ih =>
    obtain ⟨k₀, v₀⟩ := p
    by_cases h2k : byteLt k₂ k₀ = true
    · have h1k : byteLt k₁ k₀ = true := byteLt_trans _ _ _ hlt h2k
      simp [insertSorted, h2k, h1k, hlt, hba, hne']
    · by_cases h2e : k₂ = k₀
      · subst h2e
        simp [insertSorted, byteLt_irrefl, hlt, hba, hne']
      · by_cases h1k : byteLt k₁ k₀ = true
        · simp [insertSorted, h2k, h2e, h1k, hlt, hba, hne']
        · by_cases h1e : k₁ = k₀
          · subst h1e
            simp [insertSorted, byteLt_irrefl, h2k, h2e, hba, hne']
          · simp only [insertSorted, if_neg h2k, if_neg h2e, if_neg h1k, if_neg h1e, ih]

theorem insertSorted_comm (k₁ v₁ k₂ v₂ : Bytes) (hne : k₁ ≠ k₂)
    (m : List (Bytes × Bytes)) :
    insertSorted k₁ v₁ (insertSorted k₂ v₂ m)
      = insertSorted k₂ v₂ (insertSorted k₁ v₁ m) := by
  rcases byteLt_total k₁ k₂ with h | h | h
  · exact insertSorted_comm_lt k₁ v₁ k₂ v₂ h m
  · exact absurd h hne
  · exact (insertSorted_comm_lt k₂ v₂ k₁ v₁ h m).symm

theorem foldl_insertSorted_overwrite :
    ∀ (l : List (Bytes × Bytes)) (m : List (Bytes × Bytes)) (k v : Bytes),
    (∃ q ∈ l, q.1 = k) →
    l.foldl (fun m p => insertSorted p.1 p.2 m) (insertSorted k v m)
      = l.foldl (fun m p => insertSorted p.1 p.2 m) m := by
  intro l
  induction l with
  | nil => intro m k v h; simp at h
  | cons q rest ih =>
    intro m k v h
    by_cases hqk : q.1 = k
    · simp only [List.foldl_cons]
      rw [hqk, insertSorted_collapse]
    · obtain ⟨q', hq', hq'k⟩ := h
      rcases List.mem_cons.mp hq' with he | he
      · exact absurd (he ▸ hq'k) hqk
      · simp only [List.foldl_cons]
        rw [insertSorted_comm q.1 q.2 k v hqk m] at *
        exact ih (insertSorted q.1 q.2 m) k v ⟨q', he, hq'k⟩

theorem foldl_insertSorted_dedup :
    ∀ (l : List (Bytes × Bytes)) (m : List (Bytes × Bytes)),
    l.foldl (fun m p => insertSorted p.1 p.2 m) m
      = (dedupLastBy Prod.fst l).foldl (fun m p => insertSorted p.1 p.2 m) m := by
  intro l
  induction l with
  | nil => intro m; rfl
  | cons p rest ih =>
    intro m
    by_cases hdup : ∃ q ∈ rest, q.1 = p.1
    · have hc : rest.any (fun q => q.1 == p.1) = true := by
        rw [List.any_eq_true]
        obtain ⟨q, hq, hqe⟩ := hdup
        exact ⟨q, hq, by simp [hqe]⟩
      simp only [dedupLastBy, hc, if_true, List.foldl_cons]
      rw [foldl_insertSorted_overwrite rest m p.1 p.2 hdup, ih]
    · have hc : rest.any (fun q => q.1 == p.1) = false := by
        rw [Bool.eq_false_iff]
        intro hc
        rw [List.any_eq_true] at hc
        obtain ⟨q, hq, hqe⟩ := hc
        exact hdup ⟨q, hq, by simpa using hqe⟩
      simp only [dedupLastBy, hc, if_false, Bool.false_eq_true, List.foldl_cons, ih]

theorem toBTree_dedup (l : List (Bytes × Bytes)) :
    toBTree (dedupLastBy Prod.fst l) = toBTree l :=
  (foldl_insertSorted_dedup l []).symm

theorem dedupLastBy_map (g : Bytes × Bytes → Bytes × Bytes)
    (f f' : Bytes × Bytes → Bytes) (hff' : ∀ p, f' (g p) = f p) :
    ∀ (l : List (Bytes × Bytes)),
    (dedupLastBy f l).map g = dedupLastBy f' (l.map g) := by
  intro l
  induction l with
  | nil => rfl
  | cons p rest ih =>
    have hcond : (rest.map g).any (fun q => f' q == f' (g p))
        = rest.any (fun q => f q == f p) := by
      rw [List.any_map]
      congr 1
      funext q
      simp [Function.comp, hff']
    by_cases hc : rest.any (fun q => f q == f p) = true
    · simp only [dedupLastBy, List.map_cons, hcond, hc, if_true, ih]
    · have hcf : rest.any (fun q => f q == f p) = false := Bool.eq_false_iff.mpr hc
      simp only [dedupLastBy, List.map_cons, hcond, hcf, Bool.false_eq_true, if_false, ih]

/-- C7: all three entry points keep at most one entry per derived key, last
insertion winning — the root is unchanged when every earlier duplicate of a
(derived) key is dropped — and the surviving entries sit in ascending
byte-lexicographic key order (before nibble conversion). -/
theorem trie_root_last_wins_sorted (hash : Bytes → Bytes)
    (l : List (Bytes × Bytes)) (v : List Bytes) :
    trie_root hash l = trie_root hash (dedupLastBy Prod.fst l) ∧
    sec_trie_root hash l = sec_trie_root hash (dedupLastBy (fun p => hash p.1) l) ∧
    (toBTree l).Pairwise (fun a b => byteLt a.1 b.1 = true) ∧
    (toBTree (l.map (fun p => (hash p.1, p.2)))).Pairwise
      (fun a b => byteLt a.1 b.1 = true) ∧
    (orderedEntries v).Pairwise (fun a b => byteLt a.1 b.1 = true) := by
  refine ⟨?_, ?_, toBTree_pairwise l, toBTree_pairwise _, toBTree_pairwise _⟩
  · simp [trie_root, toBTree_dedup]
  · have hmap : (dedupLastBy (fun p => hash p.1) l).map (fun p => (hash p.1, p.2))
        = dedupLastBy Prod.fst (l.map (fun p => (hash p.1, p.2))) :=
      dedupLastBy_map (fun p => (hash p.1, p.2)) (fun p => hash p.1) Prod.fst
        (fun p => rfl) l
    simp [sec_trie_root, hmap, toBTree_dedup]

/-! ### Big-endian integer encoding and its lexicographic order (C4) -/

theorem natBytesBEAux_irrel : ∀ (n fuel fuel' : Nat), n ≤ fuel → n ≤ fuel' →
    natBytesBEAux fuel n = natBytesBEAux fuel' n := by
  intro n
  induction n using Nat.strong_induction_on with
  | _ n ih =>
    intro fuel fuel' hf hf'
    cases n with
    | zero => cases fuel <;> cases fuel' <;> simp [natBytesBEAux]
    | succ m =>
      cases fuel with
      | zero => omega
      | succ f =>
        cases fuel' with
        | zero => omega
        | succ f' =>
          simp only [natBytesBEAux, Nat.succ_ne_zero, if_false]
          have hlt : (m + 1) / 256 < m + 1 := Nat.div_lt_self (by omega) (by omega)
          rw [ih ((m + 1) / 256) hlt f f' (by omega) (by omega)]

theorem natBytesBE_unfold (n : Nat) (h : n ≠ 0) :
    natBytesBE n = natBytesBE (n / 256) ++ [n % 256] := by
  cases n with
  | zero => exact absurd rfl h
  | succ m =>
    have h1 : natBytesBEAux (m + 1) (m + 1)
        = natBytesBEAux m ((m + 1) / 256) ++ [(m + 1) % 256] := by
      simp [natBytesBEAux]
    have h2 : natBytesBEAux m ((m + 1) / 256)
        = natBytesBEAux ((m + 1) / 256) ((m + 1) / 256) :=
      natBytesBEAux_irrel ((m + 1) / 256) m ((m + 1) / 256) (by omega) (by omega)
    show natBytesBEAux (m + 1) (m + 1)
        = natBytesBEAux ((m + 1) / 256) ((m + 1) / 256) ++ [(m + 1) % 256]
    rw [h1, h2]

theorem natBytesBE_eq_nil_iff (n : Nat) : natBytesBE n = [] ↔ n = 0 := by
  constructor
  · intro h
    by_contra hn
    rw [natBytesBE_unfold n hn] at h
    simp at h
  · intro h; rw [h]; rfl

theorem natBytesBE_all_lt (n : Nat) : ∀ x ∈ natBytesBE n, x < 256 := by
  induction n using Nat.strong_induction_on with
  | _ n ih =>
    intro x hx
    cases Nat.eq_zero_or_pos n with
    | inl h => rw [h] at hx; simp [natBytesBE, natBytesBEAux] at hx
    | inr h =>
      rw [natBytesBE_unfold n (by omega)] at hx
      rcases List.mem_append.mp hx with h' | h'
      · exact ih (n / 256) (Nat.div_lt_self h (by omega)) x h'
      · simp at h'
        rw [h']
        exact Nat.mod_lt n (by omega)

theorem blen_succ (n : Nat) (h : n ≠ 0) : blen n = blen (n / 256) + 1 := by
  simp [blen, natBytesBE_unfold n h]

theorem blen_pos (n : Nat) (h : n ≠ 0) : 1 ≤ blen n := by
  rw [blen_succ n h]; omega

theorem blen_mono : ∀ (j i : Nat), i ≤ j → blen i ≤ blen j := by
  intro j
  induction j using Nat.strong_induction_on with
  | _ j ih =>
    intro i hij
    cases Nat.eq_zero_or_pos i with
    | inl h => simp [h, blen, natBytesBE, natBytesBEAux]
    | inr h =>
      have hj : j ≠ 0 := by omega
      rw [blen_succ i (by omega), blen_succ j hj]
      have : i / 256 ≤ j / 256 := Nat.div_le_div_right hij
      have hjlt : j / 256 < j := Nat.div_lt_self (by omega) (by omega)
      exact Nat.succ_le_succ (ih (j / 256) hjlt (i / 256) this)

theorem blen_le_of_lt_pow : ∀ (n k : Nat), n < 256 ^ k → blen n ≤ k := by
  intro n
  induction n using Nat.strong_induction_on with
  | _ n ih =>
    intro k hk
    cases Nat.eq_zero_or_pos n with
    | inl h => simp [h, blen, natBytesBE, natBytesBEAux]
    | inr h =>
      cases k with
      | zero => simp at hk; omega
      | succ m =>
        rw [blen_succ n (by omega)]
        have hq : n / 256 < 256 ^ m := by
          rw [Nat.div_lt_iff_lt_mul (by omega)]
          calc n < 256 ^ (m + 1) := hk
            _ = 256 ^ m * 256 := by ring
        exact Nat.succ_le_succ (ih (n / 256) (Nat.div_lt_self h (by omega)) m hq)

theorem byteLt_natBytesBE_of_lt : ∀ (j i : Nat), 0 < i → i < j → blen i = blen j →
    byteLt (natBytesBE i) (natBytesBE j) = true := by
  intro j
  induction j using Nat.strong_induction_on with
  | _ j ih =>
    intro i hi hij hbl
    have hj : j ≠ 0 := by omega
    rw [natBytesBE_unfold i (by omega), natBytesBE_unfold j hj]
    have hq : blen (i / 256) = blen (j / 256) := by
      have h1 := blen_succ i (by omega)
      have h2 := blen_succ j hj
      omega
    have hqle : i / 256 ≤ j / 256 := Nat.div_le_div_right (by omega)
    rcases Nat.lt_or_ge (i / 256) (j / 256) with hqlt | hqge
    · have hqpos : 0 < i / 256 := by
        by_contra hz
        have hz0 : i / 256 = 0 := by omega
        rw [hz0] at hq
        have hb0 : blen 0 = 0 := rfl
        have := blen_pos (j / 256) (by omega)
        omega
      apply byteLt_append_of_lt
      · exact hq
      · exact ih (j / 256) (Nat.div_lt_self (by omega) (by omega)) (i / 256) hqpos hqlt hq
    · have hqeq : i / 256 = j / 256 := by omega
      rw [hqeq, byteLt_append_same]
      have hmod : i % 256 < j % 256 := by omega
      simp [byteLt, hmod]

theorem natBytesBE_small (n : Nat) (h1 : 1 ≤ n) (h2 : n ≤ 255) : natBytesBE n = [n] := by
  rw [natBytesBE_unfold n (by omega)]
  have hd : n / 256 = 0 := Nat.div_eq_of_lt (by omega)
  have hm : n % 256 = n := Nat.mod_eq_of_lt (by omega)
  rw [hd, hm]
  rfl

theorem rlpEncNat_small (n : Nat) (h1 : 1 ≤ n) (h2 : n ≤ 127) : rlpEncNat n = [n] := by
  rw [rlpEncNat, natBytesBE_small n h1 (by omega)]
  simp [rlpEncodeBytes, Nat.lt_succ_of_le h2]

theorem rlpEncNat_large (n : Nat) (h : 128 ≤ n) :
    rlpEncNat n = rlpStrHeader (blen n) ++ natBytesBE n := by
  rw [rlpEncNat]
  rcases Nat.lt_or_ge n 256 with hn | hn
  · rw [natBytesBE_small n (by omega) (by omega)]
    have hb : blen n = 1 := by rw [blen, natBytesBE_small n (by omega) (by omega)]; rfl
    rw [hb]
    simp [rlpEncodeBytes]
    omega
  · have hb2 : 2 ≤ blen n := by
      rw [blen_succ n (by omega)]
      have : n / 256 ≠ 0 := by
        have := Nat.le_div_iff_mul_le (k := 256) (by omega) |>.mpr (by omega : 1 * 256 ≤ n)
        omega
      have := blen_pos (n / 256) this
      omega
    have hlen : (natBytesBE n).length = blen n := rfl
    match hbe : natBytesBE n with
    | [] => rw [blen, hbe] at hb2; simp at hb2
    | [x] => rw [blen, hbe] at hb2; simp at hb2
    | x :: y :: rest =>
      show rlpEncodeBytes (x :: y :: rest) = rlpStrHeader (blen n) ++ (x :: y :: rest)
      have hbl : blen n = (x :: y :: rest).length := by rw [blen, hbe]
      rw [hbl]
      rfl

theorem byteLt_rlpEncNat (i j : Nat) (hi : 1 ≤ i) (hij : i < j) :
    byteLt (rlpEncNat i) (rlpEncNat j) = true := by
  by_cases hj : j ≤ 127
  · rw [rlpEncNat_small i hi (by omega), rlpEncNat_small j (by omega) hj]
    simp [byteLt, hij]
  · rw [rlpEncNat_large j (by omega)]
    by_cases hi127 : i ≤ 127
    · rw [rlpEncNat_small i hi hi127]
      rw [rlpStrHeader]
      by_cases hb : blen j ≤ 55
      · rw [if_pos hb]
        show byteLt [i] ((128 + blen j) :: natBytesBE j) = true
        simp [byteLt]
        omega
      · rw [if_neg hb]
        show byteLt [i] ((183 + blen (blen j)) :: (natBytesBE (blen j) ++ natBytesBE j)) = true
        simp [byteLt]
        omega
    · rw [rlpEncNat_large i (by omega)]
      have hbl : blen i ≤ blen j := blen_mono j i (le_of_lt hij)
      by_cases hbe : blen i = blen j
      · rw [hbe, byteLt_append_same]
        exact byteLt_natBytesBE_of_lt j i (by omega) hij hbe
      · have hblt : blen i < blen j := lt_of_le_of_ne hbl hbe
        rw [rlpStrHeader, rlpStrHeader]
        by_cases hb55 : blen j ≤ 55
        · rw [if_pos (by omega : blen i ≤ 55), if_pos hb55]
          show byteLt ((128 + blen i) :: natBytesBE i) ((128 + blen j) :: natBytesBE j) = true
          simp [byteLt]
          omega
        · by_cases hbi55 : blen i ≤ 55
          · rw [if_pos hbi55, if_neg hb55]
            have h1 : 1 ≤ blen (blen j) := blen_pos (blen j) (by omega)
            show byteLt ((128 + blen i) :: natBytesBE i)
              ((183 + blen (blen j)) :: (natBytesBE (blen j) ++ natBytesBE j)) = true
            simp [byteLt]
            omega
          · rw [if_neg hbi55, if_neg hb55]
            have hmm : blen (blen i) ≤ blen (blen j) := blen_mono _ _ (le_of_lt hblt)
            show byteLt ((183 + blen (blen i)) :: (natBytesBE (blen i) ++ natBytesBE i))
              ((183 + blen (blen j)) :: (natBytesBE (blen j) ++ natBytesBE j)) = true
            by_cases hbb : blen (blen i) = blen (blen j)
            · rw [hbb, byteLt_cons_same]
              apply byteLt_append_of_lt
              · exact hbb
              · exact byteLt_natBytesBE_of_lt (blen j) (blen i)
                  (blen_pos i (by omega)) hblt hbb
            · have : blen (blen i) < blen (blen j) := lt_of_le_of_ne hmm hbb
              simp [byteLt]
              omega

theorem rlpEncNat_len_ge_two (n : Nat) (h : 128 ≤ n) : 2 ≤ (rlpEncNat n).length := by
  rw [rlpEncNat_large n h, List.length_append]
  have h1 : 1 ≤ (rlpStrHeader (blen n)).length := by
    rw [rlpStrHeader]
    split <;> simp
  have h2 : 1 ≤ blen n := blen_pos n (by omega)
  have h3 : (natBytesBE n).length = blen n := rfl
  omega

theorem rlpEncNat_inj (i j : Nat) (hne : i ≠ j) : rlpEncNat i ≠ rlpEncNat j := by
  suffices hlt : ∀ a b, a < b → rlpEncNat a ≠ rlpEncNat b by
    rcases Nat.lt_trichotomy i j with h | h | h
    · exact hlt i j h
    · exact absurd h hne
    · exact (hlt j i h).symm
  intro a b hab
  cases Nat.eq_zero_or_pos a with
  | inr ha =>
    intro hc
    have hbl := byteLt_rlpEncNat a b (by omega) hab
    rw [hc, byteLt_irrefl] at hbl
    exact absurd hbl (by simp)
  | inl ha =>
    subst ha
    by_cases hb : b ≤ 127
    · rw [rlpEncNat_small b (by omega) hb]
      intro hc
      have : (128 : Nat) = b := by
        have := List.head_eq_of_cons_eq hc
        simpa using this
      omega
    · intro hc
      have hlen := congrArg List.length hc
      have h1 : (rlpEncNat 0).length = 1 := rfl
      have h2 := rlpEncNat_len_ge_two b (by omega)
      omega

theorem findIdx_lt_of_sorted : ∀ (l : List (Bytes × Bytes)) (k₁ k₂ : Bytes),
    l.Pairwise (fun a b => byteLt a.1 b.1 = true) →
    k₁ ∈ l.map Prod.fst → k₂ ∈ l.map Prod.fst → byteLt k₁ k₂ = true →
    l.findIdx (fun p => p.1 == k₁) < l.findIdx (fun p => p.1 == k₂) := by
  intro l
  induction l with
  | nil => intro k₁ k₂ _ h1 _ _; simp at h1
  | cons p t ih =>
    intro k₁ k₂ hs h1 h2 hlt
    have hne : k₁ ≠ k₂ := by
      intro hc
      rw [hc, byteLt_irrefl] at hlt
      exact absurd hlt (by simp)
    rw [List.pairwise_cons] at hs
    rw [List.map_cons] at h1 h2
    by_cases hp1 : p.1 = k₁
    · have e1 : (p :: t).findIdx (fun q => q.1 == k₁) = 0 := by
        rw [List.findIdx_cons]
        simp [hp1]
      have hp2 : (p.1 == k₂) = false := by
        simp only [beq_eq_false_iff_ne, ne_eq, hp1]
        exact hne
      have e2 : (p :: t).findIdx (fun q => q.1 == k₂)
          = t.findIdx (fun q => q.1 == k₂) + 1 := by
        rw [List.findIdx_cons, hp2]
        rfl
      rw [e1, e2]
      omega
    · have h1t : k₁ ∈ t.map Prod.fst := by
        rcases List.mem_cons.mp h1 with he | he
        · exact absurd he.symm hp1
        · exact he
      have hp2 : p.1 ≠ k₂ := by
        intro hc
        obtain ⟨q, hq, hqk⟩ := List.mem_map.mp h1t
        have hb := hs.1 q hq
        rw [hqk, hc] at hb
        rw [byteLt_asymm hlt] at hb
        exact absurd hb (by simp)
      have h2t : k₂ ∈ t.map Prod.fst := by
        rcases List.mem_cons.mp h2 with he | he
        · exact absurd he.symm hp2
        · exact he
      have e1 : (p :: t).findIdx (fun q => q.1 == k₁)
          = t.findIdx (fun q => q.1 == k₁) + 1 := by
        rw [List.findIdx_cons, show (p.1 == k₁) = false by simpa using hp1]
        rfl
      have e2 : (p :: t).findIdx (fun q => q.1 == k₂)
          = t.findIdx (fun q => q.1 == k₂) + 1 := by
        rw [List.findIdx_cons, show (p.1 == k₂) = false by simpa using hp2]
        rfl
      rw [e1, e2]
      exact Nat.succ_lt_succ (ih k₁ k₂ hs.2 h1t h2t hlt)

/-- C4 (corrected, counterexample): entries of `ordered_trie_root` are NOT
ordered by numeric index once encoded: with two values, the entry keyed by
the encoding of index 0 (`[0x80]`) comes after the entry keyed by the
encoding of index 1 (`[0x01]`), because `0x80 > 0x01` lexicographically. -/
theorem orderedEntries_index_order_cex :
    ¬ ((orderedEntries [[0], [1]]).findIdx (fun p => p.1 == rlpEncNat 0)
        < (orderedEntries [[0], [1]]).findIdx (fun p => p.1 == rlpEncNat 1)) := by
  decide

/-- C4 (amended): the normalized entry list of `ordered_trie_root` is ordered
by ascending byte-lexicographic order of the encoded indices; for indices
`1 ≤ i < j` this places the entry for `i` before the entry for `j`, but the
entry for index 0 (encoded as `[0x80]`) is an exception and sorts after the
entries for indices 1..127. -/
theorem orderedEntries_sorted_encoded (v : List Bytes) (i j : Nat)
    (hi : 1 ≤ i) (hij : i < j) (hj : j < v.length) :
    (orderedEntries v).Pairwise (fun a b => byteLt a.1 b.1 = true) ∧
    (orderedEntries v).findIdx (fun p => p.1 == rlpEncNat i)
      < (orderedEntries v).findIdx (fun p => p.1 == rlpEncNat j) := by
  have hkeys : ((v.enum.map (fun p => (rlpEncNat p.1, p.2))).map Prod.fst)
      = (List.range v.length).map rlpEncNat := by
    rw [List.map_map]
    have he : (Prod.fst ∘ fun p : Nat × Bytes => (rlpEncNat p.1, p.2))
        = rlpEncNat ∘ Prod.fst := rfl
    rw [he, ← List.map_map, List.enum_map_fst]
  have hinj : Function.Injective rlpEncNat := by
    intro a b hab
    by_contra hne
    exact rlpEncNat_inj a b hne hab
  have hnd : ((v.enum.map (fun p => (rlpEncNat p.1, p.2))).map Prod.fst).Nodup := by
    rw [hkeys]
    exact (List.nodup_range _).map hinj
  have hperm := toBTree_perm _ hnd
  have hkeysperm : ((orderedEntries v).map Prod.fst).Perm
      ((List.range v.length).map rlpEncNat) := by
    have hp := hperm.map Prod.fst
    rw [hkeys] at hp
    exact hp
  have hmem1 : rlpEncNat i ∈ (orderedEntries v).map Prod.fst :=
    hkeysperm.mem_iff.mpr (List.mem_map.mpr ⟨i, List.mem_range.mpr (by omega), rfl⟩)
  have hmem2 : rlpEncNat j ∈ (orderedEntries v).map Prod.fst :=
    hkeysperm.mem_iff.mpr (List.mem_map.mpr ⟨j, List.mem_range.mpr hj, rfl⟩)
  exact ⟨toBTree_pairwise _,
    findIdx_lt_of_sorted _ _ _ (toBTree_pairwise _) hmem1 hmem2 (byteLt_rlpEncNat i j hi hij)⟩

/-- C4 witness: three values; the entries for indices 1 and 2 appear in that
order in the normalized list. -/
theorem orderedEntries_sorted_encoded_wit :
    (orderedEntries [[9], [8], [7]]).Pairwise (fun a b => byteLt a.1 b.1 = true) ∧
    (orderedEntries [[9], [8], [7]]).findIdx (fun p => p.1 == rlpEncNat 1)
      < (orderedEntries [[9], [8], [7]]).findIdx (fun p => p.1 == rlpEncNat 2) :=
  orderedEntries_sorted_encoded [[9], [8], [7]] 1 2 (by decide) (by decide) (by decide)

/-! ### Shared-prefix computation (C8) -/

theorem spl_le_left : ∀ (a b : Bytes), sharedPrefixLen a b ≤ a.length := by
  intro a
  induction a with
  | nil => intro b; simp [sharedPrefixLen]
  | cons x as ih =>
    intro b
    cases b with
    | nil => simp [sharedPrefixLen]
    | cons y bs =>
      simp only [sharedPrefixLen, List.length_cons]
      split
      · exact Nat.succ_le_succ (ih bs)
      · omega

theorem spl_le_right : ∀ (a b : Bytes), sharedPrefixLen a b ≤ b.length := by
  intro a
  induction a with
  | nil => intro b; simp [sharedPrefixLen]
  | cons x as ih =>
    intro b
    cases b with
    | nil => simp [sharedPrefixLen]
    | cons y bs =>
      simp only [sharedPrefixLen, List.length_cons]
      split
      · exact Nat.succ_le_succ (ih bs)
      · omega

theorem take_spl_eq : ∀ (a b : Bytes) (n : Nat), n ≤ sharedPrefixLen a b →
    a.take n = b.take n := by
  intro a
  induction a with
  | nil =>
    intro b n h
    simp [sharedPrefixLen] at h
    simp [h]
  | cons x as ih =>
    intro b n h
    cases b with
    | nil => simp [sharedPrefixLen] at h; simp [h]
    | cons y bs =>
      simp only [sharedPrefixLen] at h
      by_cases hxy : x = y
      · rw [if_pos hxy] at h
        cases n with
        | zero => simp
        | succ m =>
          simp only [List.take_succ_cons, hxy]
          rw [ih bs m (by omega)]
      · rw [if_neg hxy] at h
        have : n = 0 := by omega
        simp [this]

theorem spl_ge : ∀ (a b : Bytes) (n : Nat), n ≤ a.length → n ≤ b.length →
    a.take n = b.take n → n ≤ sharedPrefixLen a b := by
  intro a
  induction a with
  | nil => intro b n h _ _; simp at h; omega
  | cons x as ih =>
    intro b n ha hb ht
    cases b with
    | nil => simp at hb; omega
    | cons y bs =>
      cases n with
      | zero => omega
      | succ m =>
        simp only [List.take_succ_cons, List.cons.injEq] at ht
        simp only [sharedPrefixLen, if_pos ht.1]
        have := ih bs m (by simpa using ha) (by simpa using hb) ht.2
        omega

theorem foldl_min_le_init (f : Bytes × Bytes → Nat) :
    ∀ (l : List (Bytes × Bytes)) (a : Nat),
    l.foldl (fun acc p => min (f p) acc) a ≤ a := by
  intro l
  induction l with
  | nil => intro a; simp
  | cons p rest ih =>
    intro a
    calc rest.foldl (fun acc p => min (f p) acc) (min (f p) a) ≤ min (f p) a := ih _
      _ ≤ a := Nat.min_le_right _ _

theorem foldl_min_le_mem (f : Bytes × Bytes → Nat) :
    ∀ (l : List (Bytes × Bytes)) (a : Nat) (p), p ∈ l →
    l.foldl (fun acc p => min (f p) acc) a ≤ f p := by
  intro l
  induction l with
  | nil => intro a p h; simp at h
  | cons q rest ih =>
    intro a p hp
    rcases List.mem_cons.mp hp with he | he
    · subst he
      calc rest.foldl (fun acc p => min (f p) acc) (min (f p) a)
          ≤ min (f p) a := foldl_min_le_init f rest _
        _ ≤ f p := Nat.min_le_left _ _
    · exact ih _ p he

theorem le_foldl_min (f : Bytes × Bytes → Nat) :
    ∀ (l : List (Bytes × Bytes)) (a n : Nat), n ≤ a → (∀ p ∈ l, n ≤ f p) →
    n ≤ l.foldl (fun acc p => min (f p) acc) a := by
  intro l
  induction l with
  | nil => intro a n h _; simpa using h
  | cons q rest ih =>
    intro a n h hall
    refine ih _ n ?_ (fun p hp => hall p (List.mem_cons_of_mem _ hp))
    exact le_min (hall q (List.mem_cons_self _ _)) h

/-- C8: on a range of at least two sorted entries, the shared-prefix length
computed by `hash256rlp` — the fold of the pairwise shared-prefix length of
every later entry against the first, capped at the first key's length — is
exactly the longest common prefix of all keys in the range (every key agrees
with the first on that many positions, and no larger agreement holds for all
of them), and the function emits a 2-item extension node consuming
`key[pre_len..shared]` with `leaf = false` if and only if that shared length
strictly exceeds `pre_len` (otherwise it emits the 17-item branch node). -/
theorem hash256rlp_shared_prefix_spec (hash : Bytes → Bytes) (fuel preLen : Nat)
    (key value : Bytes) (rest : List (Bytes × Bytes)) (hrest : rest ≠ []) :
    (∀ p ∈ (key, value) :: rest,
      rest.foldl (fun acc p => min (sharedPrefixLen key p.1) acc) key.length ≤ p.1.length ∧
      p.1.take (rest.foldl (fun acc p => min (sharedPrefixLen key p.1) acc) key.length)
        = key.take (rest.foldl (fun acc p => min (sharedPrefixLen key p.1) acc) key.length)) ∧
    (∀ n, (∀ p ∈ (key, value) :: rest, n ≤ p.1.length ∧ p.1.take n = key.take n) →
      n ≤ rest.foldl (fun acc p => min (sharedPrefixLen key p.1) acc) key.length) ∧
    (preLen < rest.foldl (fun acc p => min (sharedPrefixLen key p.1) acc) key.length →
      hash256rlp hash (fuel + 1) ((key, value) :: rest) preLen
        = match hash256aux hash fuel ((key, value) :: rest)
              (rest.foldl (fun acc p => min (sharedPrefixLen key p.1) acc) key.length) with
          | Except.ok item => Except.ok (rlpList [rlpEncodeBytes
              (hex_prefix_encode ((key.drop preLen).take
                ((rest.foldl (fun acc p => min (sharedPrefixLen key p.1) acc) key.length)
                  - preLen)) false), item])
          | Except.error e => Except.error e) ∧
    (rest.foldl (fun acc p => min (sharedPrefixLen key p.1) acc) key.length ≤ preLen →
      hash256rlp hash (fuel + 1) ((key, value) :: rest) preLen
        = match branchLoopWith hash (hash256rlp hash fuel) ((key, value) :: rest) preLen 16
              (if preLen = key.length then 1 else 0) with
          | Except.ok items => Except.ok (rlpList (items ++
              [if preLen = key.length then rlpEncodeBytes value else rlpEncodeBytes []]))
          | Except.error e => Except.error e) := by
  refine ⟨?_, ?_, ?_, ?_⟩
  · intro p hp
    rcases List.mem_cons.mp hp with he | he
    · subst he
      exact ⟨foldl_min_le_init _ rest _, rfl⟩
    · have h1 : rest.foldl (fun acc p => min (sharedPrefixLen key p.1) acc) key.length
          ≤ sharedPrefixLen key p.1 := foldl_min_le_mem _ rest _ p he
      constructor
      · exact le_trans h1 (spl_le_right key p.1)
      · exact (take_spl_eq key p.1 _ h1).symm
  · intro n hn
    refine le_foldl_min _ rest _ n (hn (key, value) (List.mem_cons_self _ _)).1 ?_
    intro p hp
    have h1 := hn p (List.mem_cons_of_mem _ hp)
    have h2 := hn (key, value) (List.mem_cons_self _ _)
    exact spl_ge key p.1 n h2.1 h1.1 h1.2.symm
  · intro hc
    cases rest with
    | nil => exact absurd rfl hrest
    | cons q rest' =>
      show hash256rlpStep hash (hash256rlp hash fuel) ((key, value) :: q :: rest') preLen = _
      rw [hash256rlpStep]
      simp only [List.isEmpty_cons, Bool.false_eq_true, if_false]
      rw [if_pos hc]
      rfl
  · intro hc
    cases rest with
    | nil => exact absurd rfl hrest
    | cons q rest' =>
      show hash256rlpStep hash (hash256rlp hash fuel) ((key, value) :: q :: rest') preLen = _
      rw [hash256rlpStep]
      simp only [List.isEmpty_cons, Bool.false_eq_true, if_false]
      rw [if_neg (by omega)]

/-- C8 witness: two entries sharing their first nibble; the extension case is
taken with a shared length of 1. -/
theorem hash256rlp_shared_prefix_spec_wit :
    hash256rlp testHash 6 [([0, 1], [5]), ([0, 2], [6])] 0
      = match hash256aux testHash 5 [([0, 1], [5]), ([0, 2], [6])] 1 with
        | Except.ok item => Except.ok (rlpList [rlpEncodeBytes
            (hex_prefix_encode (([0, 1].drop 0).take 1) false), item])
        | Except.error e => Except.error e :=
  (hash256rlp_shared_prefix_spec testHash 5 0 [0, 1] [5] [([0, 2], [6])]
    (by simp)).2.2.1 (by decide)

/-! ### Fuel sufficiency and absence of out-of-bounds panics (C9, C10) -/

theorem maxKeyLen_ge : ∀ (input : List (Bytes × Bytes)) (p), p ∈ input →
    p.1.length ≤ maxKeyLen input := by
  intro input
  induction input with
  | nil => intro p h; simp at h
  | cons q rest ih =>
    intro p hp
    rcases List.mem_cons.mp hp with he | he
    · subst he
      exact Nat.le_max_left _ _
    · exact le_trans (ih p he) (Nat.le_max_right _ _)

theorem maxKeyLen_le_of_all : ∀ (input : List (Bytes × Bytes)) (B : Nat),
    (∀ p ∈ input, p.1.length ≤ B) → maxKeyLen input ≤ B := by
  intro input
  induction input with
  | nil => intro B _; simp [maxKeyLen]
  | cons q rest ih =>
    intro B hall
    show max q.1.length (maxKeyLen rest) ≤ B
    exact max_le (hall q (List.mem_cons_self _ _))
      (ih B (fun p hp => hall p (List.mem_cons_of_mem _ hp)))

theorem keysLong_after_first (key value : Bytes) (rest : List (Bytes × Bytes)) (preLen : Nat)
    (hs : ((key, value) :: rest).Pairwise (fun a b => byteLt a.1 b.1 = true))
    (hlong : ∀ p ∈ (key, value) :: rest, preLen ≤ p.1.length)
    (hagree : ∀ p ∈ (key, value) :: rest, ∀ q ∈ (key, value) :: rest,
      p.1.take preLen = q.1.take preLen) :
    ∀ p ∈ rest, preLen < p.1.length := by
  intro p hp
  rcases Nat.lt_or_ge preLen p.1.length with h | h
  · exact h
  · exfalso
    have hple : p.1.length = preLen :=
      Nat.le_antisymm h (hlong p (List.mem_cons_of_mem _ hp))
    have htake : p.1 = key.take preLen := by
      have := hagree p (List.mem_cons_of_mem _ hp) (key, value) (List.mem_cons_self _ _)
      rw [← this, ← hple, List.take_length]
    have hbl : byteLt key p.1 = true :=
      (List.pairwise_cons.mp hs).1 p hp
    rw [htake, byteLt_take_self] at hbl
    exact absurd hbl (by simp)

theorem takeCount_ok (preLen i : Nat) : ∀ (l : List (Bytes × Bytes)),
    (∀ p ∈ l, preLen < p.1.length) →
    ∃ c, takeCount preLen i l = Except.ok c ∧ c ≤ l.length ∧
      ∀ p ∈ l.take c, p.1[preLen]? = some i := by
  intro l
  induction l with
  | nil => intro _; exact ⟨0, rfl, by simp, by simp⟩
  | cons p ps ih =>
    intro hl
    have hp : preLen < p.1.length := hl p (List.mem_cons_self _ _)
    have hget : p.1[preLen]? = some p.1[preLen] := List.getElem?_eq_getElem hp
    by_cases he : p.1[preLen] = i
    · obtain ⟨c, hc, hcle, hctake⟩ := ih (fun q hq => hl q (List.mem_cons_of_mem _ hq))
      refine ⟨c + 1, ?_, by simpa using hcle, ?_⟩
      · rw [takeCount, hget]
        simp [he, hc]
      · intro q hq
        rcases List.mem_cons.mp (by simpa [List.take_succ_cons] using hq) with h' | h'
        · rw [h', hget, he]
        · exact hctake q h'
    · refine ⟨0, ?_, by simp, by simp⟩
      rw [takeCount, hget]
      simp [he]

theorem branchLoopWith_step_ok (hash : Bytes → Bytes)
    (recur : List (Bytes × Bytes) → Nat → Except TrieErr Bytes)
    (input : List (Bytes × Bytes)) (preLen r beg c : Nat) (item : Bytes) (items : List Bytes)
    (htc : (if beg < input.length then takeCount preLen (16 - (r + 1)) (input.drop beg)
            else Except.ok 0) = Except.ok c)
    (hitem : (if c = 0 then Except.ok (rlpEncodeBytes [])
              else hash256auxWith hash recur ((input.drop beg).take c) (preLen + 1))
        = Except.ok item)
    (hrest : branchLoopWith hash recur input preLen r (beg + c) = Except.ok items) :
    branchLoopWith hash recur input preLen (r + 1) beg = Except.ok (item :: items) := by
  simp only [branchLoopWith]
  rw [htc]
  simp only [hitem, hrest]

theorem branchLoop_ok (hash : Bytes → Bytes) (f : Nat) (input : List (Bytes × Bytes))
    (preLen : Nat)
    (ihf : ∀ (inp : List (Bytes × Bytes)) (pl : Nat),
      inp.Pairwise (fun a b => byteLt a.1 b.1 = true) →
      (∀ p ∈ inp, pl ≤ p.1.length) →
      (∀ p ∈ inp, ∀ q ∈ inp, p.1.take pl = q.1.take pl) →
      trieMeasure inp pl ≤ f →
      ∃ out, hash256rlp hash f inp pl = Except.ok out)
    (hs : input.Pairwise (fun a b => byteLt a.1 b.1 = true))
    (hagree : ∀ p ∈ input, ∀ q ∈ input, p.1.take preLen = q.1.take preLen)
    (hm : trieMeasure input preLen ≤ f + 1) :
    ∀ (rem beg : Nat), (∀ p ∈ input.drop beg, preLen < p.1.length) →
    ∃ items, branchLoopWith hash (hash256rlp hash f) input preLen rem beg
      = Except.ok items := by
  intro rem
  induction rem with
  | zero => intro beg _; exact ⟨[], rfl⟩
  | succ r ihr =>
    intro beg hbeg
    by_cases hblt : beg < input.length
    · obtain ⟨c, hc, hcle, hctake⟩ := takeCount_ok preLen (16 - (r + 1)) (input.drop beg) hbeg
      have hbeg' : ∀ p ∈ input.drop (beg + c), preLen < p.1.length := by
        intro p hp
        rw [← List.drop_drop] at hp
        exact hbeg p (List.mem_of_mem_drop hp)
      obtain ⟨items, hitems⟩ := ihr (beg + c) hbeg'
      by_cases hc0 : c = 0
      · exact ⟨rlpEncodeBytes [] :: items,
          branchLoopWith_step_ok hash _ input preLen r beg c _ items
            (by rw [if_pos hblt, hc]) (by rw [if_pos hc0]) hitems⟩
      · have hsub : List.Sublist ((input.drop beg).take c) input :=
          (List.take_sublist _ _).trans (List.drop_sublist _ _)
        have hs_sl := hs.sublist hsub
        have hlong_sl : ∀ p ∈ (input.drop beg).take c, preLen + 1 ≤ p.1.length := by
          intro p hp
          rcases List.getElem?_eq_some.mp (hctake p hp) with ⟨hlt, _⟩
          omega
        have hagree_sl : ∀ p ∈ (input.drop beg).take c, ∀ q ∈ (input.drop beg).take c,
            p.1.take (preLen + 1) = q.1.take (preLen + 1) := by
          intro p hp q hq
          rw [List.take_succ, List.take_succ, hctake p hp, hctake q hq,
            hagree p (hsub.subset hp) q (hsub.subset hq)]
        have hmsl : trieMeasure ((input.drop beg).take c) (preLen + 1) ≤ f := by
          have h1 : maxKeyLen ((input.drop beg).take c) ≤ maxKeyLen input :=
            maxKeyLen_le_of_all _ _ (fun p hp => maxKeyLen_ge input p (hsub.subset hp))
          have h2 : ((input.drop beg).take c).length ≤ input.length :=
            hsub.length_le
          have h3 : preLen + 1 ≤ maxKeyLen input := by
            have hne : input.drop beg ≠ [] := by
              intro hc'
              have hl := congrArg List.length hc'
              simp only [List.length_drop, List.length_nil] at hl
              omega
            obtain ⟨p, hp⟩ := List.exists_mem_of_ne_nil _ hne
            have hb1 := hbeg p hp
            have hb2 := maxKeyLen_ge input p (List.mem_of_mem_drop hp)
            omega
          unfold trieMeasure at hm ⊢
          omega
        obtain ⟨out, hout⟩ := ihf _ (preLen + 1) hs_sl hlong_sl hagree_sl hmsl
        have hitem : ∃ item, (if c = 0 then Except.ok (rlpEncodeBytes [])
            else hash256auxWith hash (hash256rlp hash f)
              ((input.drop beg).take c) (preLen + 1)) = Except.ok item := by
          rw [if_neg hc0]
          simp only [hash256auxWith, hout]
          by_cases hl31 : out.length ≤ 31
          · exact ⟨out, by rw [if_pos hl31]⟩
          · exact ⟨_, by rw [if_neg hl31]⟩
        obtain ⟨item, hit⟩ := hitem
        exact ⟨item :: items,
          branchLoopWith_step_ok hash _ input preLen r beg c item items
            (by rw [if_pos hblt, hc]) hit hitems⟩
    · obtain ⟨items, hitems⟩ := ihr (beg + 0) (by simpa using hbeg)
      exact ⟨rlpEncodeBytes [] :: items,
        branchLoopWith_step_ok hash _ input preLen r beg 0 _ items
          (by rw [if_neg hblt]) (by rw [if_pos rfl]) hitems⟩

theorem hash256rlpStep_ext_ok (hash : Bytes → Bytes)
    (recur : List (Bytes × Bytes) → Nat → Except TrieErr Bytes)
    (key value : Bytes) (q : Bytes × Bytes) (rest' : List (Bytes × Bytes))
    (preLen S : Nat) (item : Bytes)
    (hS : S = (q :: rest').foldl (fun acc p => min (sharedPrefixLen key p.1) acc) key.length)
    (hext : preLen < S)
    (hitem : hash256auxWith hash recur ((key, value) :: q :: rest') S = Except.ok item) :
    hash256rlpStep hash recur ((key, value) :: q :: rest') preLen
      = Except.ok (rlpList [rlpEncodeBytes (hex_prefix_encode
          ((key.drop preLen).take (S - preLen)) false), item]) := by
  subst hS
  rw [hash256rlpStep]
  simp only [List.isEmpty_cons, Bool.false_eq_true, if_false]
  rw [if_pos hext]
  simp only [hitem]

theorem hash256rlpStep_branch_ok (hash : Bytes → Bytes)
    (recur : List (Bytes × Bytes) → Nat → Except TrieErr Bytes)
    (key value : Bytes) (q : Bytes × Bytes) (rest' : List (Bytes × Bytes))
    (preLen S : Nat) (items : List Bytes)
    (hS : S = (q :: rest').foldl (fun acc p => min (sharedPrefixLen key p.1) acc) key.length)
    (hnlt : ¬ preLen < S)
    (hitems : branchLoopWith hash recur ((key, value) :: q :: rest') preLen 16
        (if preLen = key.length then 1 else 0) = Except.ok items) :
    hash256rlpStep hash recur ((key, value) :: q :: rest') preLen
      = Except.ok (rlpList (items ++
          [if preLen = key.length then rlpEncodeBytes value else rlpEncodeBytes []])) := by
  subst hS
  rw [hash256rlpStep]
  simp only [List.isEmpty_cons, Bool.false_eq_true, if_false]
  rw [if_neg hnlt]
  simp only [hitems]

theorem hash256rlp_ok (hash : Bytes → Bytes) : ∀ (fuel : Nat)
    (input : List (Bytes × Bytes)) (preLen : Nat),
    input.Pairwise (fun a b => byteLt a.1 b.1 = true) →
    (∀ p ∈ input, preLen ≤ p.1.length) →
    (∀ p ∈ input, ∀ q ∈ input, p.1.take preLen = q.1.take preLen) →
    trieMeasure input preLen ≤ fuel →
    ∃ out, hash256rlp hash fuel input preLen = Except.ok out := by
  intro fuel
  induction fuel with
  | zero =>
    intro input preLen _ _ _ hm
    exfalso
    unfold trieMeasure at hm
    omega
  | succ f ihf =>
    intro input preLen hs hlong hagree hm
    cases input with
    | nil => exact ⟨rlpEncodeBytes [], rfl⟩
    | cons kv rest =>
      obtain ⟨key, value⟩ := kv
      cases rest with
      | nil =>
        refine ⟨rlpList [rlpEncodeBytes (hex_prefix_encode (key.drop preLen) true),
          rlpEncodeBytes value], ?_⟩
        show hash256rlpStep hash (hash256rlp hash f) [(key, value)] preLen = _
        rw [hash256rlpStep]
        simp only [List.isEmpty_nil, if_true]
        rw [if_pos (hlong (key, value) (List.mem_cons_self _ _))]
      | cons q rest' =>
        set S := (q :: rest').foldl (fun acc p => min (sharedPrefixLen key p.1) acc)
          key.length with hS
        have hSkey : S ≤ key.length := by
          rw [hS]; exact foldl_min_le_init _ _ _
        have hmaxkey : key.length ≤ maxKeyLen ((key, value) :: q :: rest') :=
          maxKeyLen_ge ((key, value) :: q :: rest') (key, value) (List.mem_cons_self _ _)
        by_cases hext : preLen < S
        · have hlongS : ∀ p ∈ (key, value) :: q :: rest', S ≤ p.1.length := by
            intro p hp
            rcases List.mem_cons.mp hp with he | he
            · rw [he]; exact hSkey
            · have h1 : S ≤ sharedPrefixLen key p.1 := by
                rw [hS]; exact foldl_min_le_mem _ _ _ p he
              exact le_trans h1 (spl_le_right key p.1)
          have htakeS : ∀ p ∈ (key, value) :: q :: rest', p.1.take S = key.take S := by
            intro p hp
            rcases List.mem_cons.mp hp with he | he
            · rw [he]
            · have h1 : S ≤ sharedPrefixLen key p.1 := by
                rw [hS]; exact foldl_min_le_mem _ _ _ p he
              exact (take_spl_eq key p.1 S h1).symm
          have hagreeS : ∀ p ∈ (key, value) :: q :: rest', ∀ p' ∈ (key, value) :: q :: rest',
              p.1.take S = p'.1.take S := by
            intro p hp p' hp'
            rw [htakeS p hp, htakeS p' hp']
          have hmS : trieMeasure ((key, value) :: q :: rest') S ≤ f := by
            have h1 : ((key, value) :: q :: rest').length
                + (maxKeyLen ((key, value) :: q :: rest') + 1 - preLen) + 1 ≤ f + 1 := hm
            show ((key, value) :: q :: rest').length
                + (maxKeyLen ((key, value) :: q :: rest') + 1 - S) + 1 ≤ f
            omega
          obtain ⟨out, hout⟩ := ihf _ S hs hlongS hagreeS hmS
          have hitem : ∃ item, hash256auxWith hash (hash256rlp hash f)
              ((key, value) :: q :: rest') S = Except.ok item := by
            simp only [hash256auxWith, hout]
            by_cases hl31 : out.length ≤ 31
            · exact ⟨out, by rw [if_pos hl31]⟩
            · exact ⟨_, by rw [if_neg hl31]⟩
          obtain ⟨item, hit⟩ := hitem
          exact ⟨_, hash256rlpStep_ext_ok hash _ key value q rest' preLen S item hS hext hit⟩
        · have hrestlong : ∀ p ∈ q :: rest', preLen < p.1.length :=
            keysLong_after_first key value (q :: rest') preLen hs hlong hagree
          have hbeg0 : ∀ p ∈ ((key, value) :: q :: rest').drop
              (if preLen = key.length then 1 else 0), preLen < p.1.length := by
            by_cases hkey : preLen = key.length
            · rw [if_pos hkey]
              intro p hp
              exact hrestlong p hp
            · rw [if_neg hkey]
              intro p hp
              rcases List.mem_cons.mp hp with he | he
              · rw [he]
                show preLen < key.length
                have h := hlong (key, value) (List.mem_cons_self _ _)
                have h' : preLen ≤ key.length := h
                omega
              · exact hrestlong p he
          obtain ⟨items, hitems⟩ := branchLoop_ok hash f ((key, value) :: q :: rest')
            preLen ihf hs hagree hm 16 (if preLen = key.length then 1 else 0) hbeg0
          exact ⟨_, hash256rlpStep_branch_ok hash _ key value q rest' preLen S items
            hS hext hitems⟩

theorem byteLt_asNibbles : ∀ (a b : Bytes), (∀ x ∈ a, x < 256) → (∀ x ∈ b, x < 256) →
    byteLt a b = true → byteLt (asNibbles a) (asNibbles b) = true := by
  intro a
  induction a with
  | nil =>
    intro b _ _ h
    cases b with
    | nil => simp [byteLt] at h
    | cons y bs => simp [asNibbles, byteLt]
  | cons x as ih =>
    intro b ha hb h
    cases b with
    | nil => simp [byteLt] at h
    | cons y bs =>
      have hx : x < 256 := ha x (by simp)
      have hy : y < 256 := hb y (by simp)
      rcases Nat.lt_trichotomy x y with hxy | hxy | hxy
      · rcases Nat.lt_trichotomy (x / 16) (y / 16) with hd | hd | hd
        · simp [asNibbles, byteLt, Nat.mod_eq_of_lt hx, Nat.mod_eq_of_lt hy, hd]
        · have hm : x % 16 < y % 16 := by omega
          simp [asNibbles, byteLt, Nat.mod_eq_of_lt hx, Nat.mod_eq_of_lt hy, hd,
            Nat.lt_irrefl, hm]
        · omega
      · subst hxy
        have h' : byteLt as bs = true := by rwa [byteLt_cons_same] at h
        simp only [asNibbles]
        rw [byteLt_cons_same, byteLt_cons_same]
        exact ih bs (fun z hz => ha z (by simp [hz])) (fun z hz => hb z (by simp [hz])) h'
      · simp [byteLt, Nat.lt_asymm hxy, hxy] at h

theorem pairwise_nibbles (m : List (Bytes × Bytes))
    (hs : m.Pairwise (fun a b => byteLt a.1 b.1 = true))
    (hbytes : ∀ p ∈ m, ∀ x ∈ p.1, x < 256) :
    (m.map (fun p => (asNibbles p.1, p.2))).Pairwise
      (fun a b => byteLt a.1 b.1 = true) := by
  rw [List.pairwise_map]
  refine hs.imp_of_mem ?_
  intro a b hma hmb hab
  exact byteLt_asNibbles a.1 b.1 (hbytes a hma) (hbytes b hmb) hab

theorem gen_trie_root_ok (hash : Bytes → Bytes) (input : List (Bytes × Bytes))
    (hs : input.Pairwise (fun a b => byteLt a.1 b.1 = true)) :
    ∃ out, gen_trie_root hash input = Except.ok out := by
  obtain ⟨out, hout⟩ := hash256rlp_ok hash (trieFuel input) input 0 hs
    (fun p _ => Nat.zero_le _) (fun p _ q _ => by simp)
    (by unfold trieMeasure trieFuel; omega)
  exact ⟨hash out, by simp only [gen_trie_root, hout]⟩

theorem rlpEncNat_bytes_lt (n : Nat) (h : blen n ≤ 55) : ∀ x ∈ rlpEncNat n, x < 256 := by
  cases Nat.eq_zero_or_pos n with
  | inl h0 =>
    subst h0
    decide
  | inr hpos =>
    by_cases h127 : n ≤ 127
    · rw [rlpEncNat_small n hpos h127]
      intro x hx
      simp at hx
      omega
    · rw [rlpEncNat_large n (by omega)]
      intro x hx
      rcases List.mem_append.mp hx with hx | hx
      · rw [rlpStrHeader, if_pos h] at hx
        simp at hx
        omega
      · exact natBytesBE_all_lt n x hx

/-- C9: for byte-valued keys (entries of `u8` vectors, a digest producing
bytes, and a `usize`-sized input length for the index-keyed variant), none of
the three public entry points ever performs an out-of-bounds access: the
normalized entries are sorted and duplicate-free and share their consumed
prefix at every recursion state, so every inspected key is long enough and
the computation never returns the out-of-bounds error. -/
theorem entry_points_no_oob (hash : Bytes → Bytes) (l : List (Bytes × Bytes))
    (v : List Bytes)
    (hkeys : ∀ p ∈ l, ∀ x ∈ p.1, x < 256)
    (hhash : ∀ b : Bytes, ∀ x ∈ hash b, x < 256)
    (hvlen : v.length ≤ 2 ^ 64) :
    trie_root hash l ≠ Except.error TrieErr.oob ∧
    sec_trie_root hash l ≠ Except.error TrieErr.oob ∧
    ordered_trie_root hash v ≠ Except.error TrieErr.oob := by
  refine ⟨?_, ?_, ?_⟩
  · have hb : ∀ p ∈ toBTree l, ∀ x ∈ p.1, x < 256 := by
      intro p hp x hx
      have hk := keys_toBTree_sub l p.1 (List.mem_map.mpr ⟨p, hp, rfl⟩)
      obtain ⟨q, hq, hqe⟩ := List.mem_map.mp hk
      exact hkeys q hq x (by rw [hqe]; exact hx)
    obtain ⟨out, hout⟩ :=
      gen_trie_root_ok hash _ (pairwise_nibbles _ (toBTree_pairwise l) hb)
    rw [trie_root, hout]
    simp
  · have hb : ∀ p ∈ toBTree (l.map (fun p => (hash p.1, p.2))), ∀ x ∈ p.1, x < 256 := by
      intro p hp x hx
      have hk := keys_toBTree_sub _ p.1 (List.mem_map.mpr ⟨p, hp, rfl⟩)
      obtain ⟨q, hq, hqe⟩ := List.mem_map.mp hk
      obtain ⟨q', _, hq'e⟩ := List.mem_map.mp hq
      have : q.1 = hash q'.1 := by rw [← hq'e]
      exact hhash q'.1 x (by rw [← this, hqe]; exact hx)
    obtain ⟨out, hout⟩ :=
      gen_trie_root_ok hash _ (pairwise_nibbles _ (toBTree_pairwise _) hb)
    rw [sec_trie_root, hout]
    simp
  · have hb : ∀ p ∈ orderedEntries v, ∀ x ∈ p.1, x < 256 := by
      intro p hp x hx
      have hk := keys_toBTree_sub _ p.1 (List.mem_map.mpr ⟨p, hp, rfl⟩)
      obtain ⟨q, hq, hqe⟩ := List.mem_map.mp hk
      obtain ⟨e, he, hee⟩ := List.mem_map.mp hq
      have hidx : e.1 < v.length := by
        have hfst : e.1 ∈ v.enum.map Prod.fst := List.mem_map.mpr ⟨e, he, rfl⟩
        rw [List.enum_map_fst] at hfst
        exact List.mem_range.mp hfst
      have hblen : blen e.1 ≤ 55 := by
        have h1 : e.1 < 256 ^ 8 := by
          have : (2 : Nat) ^ 64 = 256 ^ 8 := by norm_num
          omega
        have := blen_le_of_lt_pow e.1 8 h1
        omega
      have hq1 : q.1 = rlpEncNat e.1 := by rw [← hee]
      exact rlpEncNat_bytes_lt e.1 hblen x (by rw [← hq1, hqe]; exact hx)
    obtain ⟨out, hout⟩ :=
      gen_trie_root_ok hash ((orderedEntries v).map (fun p => (asNibbles p.1, p.2)))
        (pairwise_nibbles (orderedEntries v) (toBTree_pairwise _) hb)
    rw [ordered_trie_root, hout]
    simp

/-- C9 witness: concrete inputs for all three entry points with the digest
stand-in, whose outputs are byte-valued. -/
theorem entry_points_no_oob_wit :
    trie_root testHash [([0, 1], [2]), ([128, 1], [3])] ≠ Except.error TrieErr.oob ∧
    sec_trie_root testHash [([0, 1], [2]), ([128, 1], [3])] ≠ Except.error TrieErr.oob ∧
    ordered_trie_root testHash [[5], [6]] ≠ Except.error TrieErr.oob := by
  refine entry_points_no_oob testHash [([0, 1], [2]), ([128, 1], [3])] [[5], [6]]
    (by decide) ?_ (by decide)
  intro b x hx
  rw [testHash] at hx
  have h := List.eq_of_mem_replicate hx
  rw [h]
  exact Nat.mod_lt _ (by omega)

/-- C10: the fuel-indexed rendering of `hash256rlp`/`hash256aux` terminates
on every sorted, duplicate-free entry range whose keys are at least
`pre_len` nibbles long and agree on their first `pre_len` nibbles: with any
fuel of at least `trieMeasure` — the lexicographic bound (range length) plus
(first-key-length headroom above `pre_len`) — the computation completes with
a result instead of exhausting its fuel or faulting. -/
theorem hash256rlp_terminates (hash : Bytes → Bytes) (fuel : Nat)
    (input : List (Bytes × Bytes)) (preLen : Nat)
    (hs : input.Pairwise (fun a b => byteLt a.1 b.1 = true))
    (hlong : ∀ p ∈ input, preLen ≤ p.1.length)
    (hagree : ∀ p ∈ input, ∀ q ∈ input, p.1.take preLen = q.1.take preLen)
    (hm : trieMeasure input preLen ≤ fuel) :
    ∃ out, hash256rlp hash fuel input preLen = Except.ok out :=
  hash256rlp_ok hash fuel input preLen hs hlong hagree hm

/-- C10 witness: a two-entry range at depth 1 whose keys share their first
nibble. -/
theorem hash256rlp_terminates_wit :
    ∃ out, hash256rlp testHash 10 [([3, 1], [7]), ([3, 2], [8])] 1 = Except.ok out :=
  hash256rlp_terminates testHash 10 [([3, 1], [7]), ([3, 2], [8])] 1
    (by decide) (by decide) (by decide) (by decide)
